import Mathlib

/-!
Verification of the plan parser, security validator and staged plan executor
of `src/main.py` (classes `SecurityManager` and `ProjectArchitect`).

Python strings are modelled as `String` at the API surface and as `List Char`
(one element per code point, matching Python's indexing, slicing and `in`
operator) inside the definitions.  Fallible steps return `Option`.
-/

/-- Python `pat in s` (substring containment), on code-point lists. -/
def containsSub (pat : List Char) : List Char → Bool
  | [] => pat.isEmpty
  | c :: rest => pat.isPrefixOf (c :: rest) || containsSub pat rest

/-- Python `s.lower()` on a code-point list (code-point-wise lowering). -/
def lowerChars (l : List Char) : List Char := l.map Char.toLower

namespace SecurityManager

/-- `SecurityManager.DANGEROUS_PATTERNS` from `src/main.py`. -/
def DANGEROUS_PATTERNS : List String :=
  ["rm -rf", "sudo", "chmod", "chown", "> /dev", "dd", "mkfs", "passwd",
   "mv /*", "> /dev/sd"]

/-- The loop of `validate_command`: scan the pattern list in order and return
the first rejection, or `(True, "Command validated")` if no pattern occurs in
the lowercased command. -/
def validateLoop (command : String) : List String → Bool × String
  | [] => (true, "Command validated")
  | p :: rest =>
    if containsSub p.toList (lowerChars command.toList) then
      (false, "Dangerous command detected: " ++ command)
    else validateLoop command rest

/-- `SecurityManager.validate_command` from `src/main.py`: case-insensitive
substring scan of the command against `DANGEROUS_PATTERNS`. -/
def validate_command (command : String) : Bool × String :=
  validateLoop command DANGEROUS_PATTERNS

end SecurityManager

/-- A `{"path": ..., "content": ...}` entry of `execution_plan["files"]`. -/
structure FileArtifact where
  path : String
  content : String
deriving DecidableEq

/-- The `execution_plan` dictionary of `ProjectArchitect`:
`{"files": [], "commands": [], "dependencies": []}`. -/
structure ExecutionPlan where
  files : List FileArtifact
  commands : List String
  dependencies : List String
deriving DecidableEq

/-- Python `s.strip()`: drop whitespace from both ends of a code-point list. -/
def strip (l : List Char) : List Char :=
  ((l.dropWhile Char.isWhitespace).reverse.dropWhile Char.isWhitespace).reverse

/-- Python `s.split(sep)` for a one-character separator (used with `'\n'`,
mirroring `response.split('\n')`): no collapsing of empty fields. -/
def splitOnChar (sep : Char) : List Char → List (List Char)
  | [] => [[]]
  | c :: rest =>
    if c = sep then [] :: splitOnChar sep rest
    else
      match splitOnChar sep rest with
      | [] => [[c]]
      | seg :: segs => (c :: seg) :: segs

/-- Python `s.split(sep, 1)` restricted to the case used by the parser:
`some (before, after)` at the first occurrence of `sep`, `none` when `sep`
does not occur (in Python the one-element list then fails tuple unpacking,
which the parser catches and logs). -/
def splitOnce (sep : List Char) : List Char → Option (List Char × List Char)
  | [] => none
  | c :: rest =>
    if sep.isPrefixOf (c :: rest) then some ([], List.drop sep.length (c :: rest))
    else
      match splitOnce sep rest with
      | some (p, q) => some (c :: p, q)
      | none => none

/-- The `current_section` variable of `_parse_plan` (`None`, `"files"`,
`"commands"` or `"dependencies"`). -/
inductive PlanSection
  | none
  | files
  | commands
  | dependencies
deriving DecidableEq

namespace ProjectArchitect

/-- The `" => "` separator of `FILE:` lines. -/
def SEP_ARROW : List Char := " => ".toList

/-- The body of `_parse_plan`'s `for` loop over lines: strip the line, switch
section on `// FILES` / `// COMMANDS` / `// DEPS` markers, and in a matching
section append the entry a tagged line describes, using the fixed offsets
`line[6:]` (FILE:), `line[7:]` (SHELL:), `line[5:]` (PKG:) of the source.  A
`FILE:` line whose remainder lacks `" => "` raises in Python, is caught and
only logged: the state is returned unchanged. -/
def processLine (st : PlanSection × ExecutionPlan) (rawLine : List Char) :
    PlanSection × ExecutionPlan :=
  let line := strip rawLine
  if ("// FILES".toList).isPrefixOf line then (PlanSection.files, st.2)
  else if ("// COMMANDS".toList).isPrefixOf line then (PlanSection.commands, st.2)
  else if ("// DEPS".toList).isPrefixOf line then (PlanSection.dependencies, st.2)
  else if st.1 = PlanSection.files ∧ ("FILE:".toList).isPrefixOf line then
    match splitOnce SEP_ARROW (line.drop 6) with
    | some (p, q) =>
      (st.1, { st.2 with
        files := st.2.files ++ [{ path := ⟨strip p⟩, content := ⟨strip q⟩ }] })
    | none => st
  else if st.1 = PlanSection.commands ∧ ("SHELL:".toList).isPrefixOf line then
    (st.1, { st.2 with commands := st.2.commands ++ [⟨strip (line.drop 7)⟩] })
  else if st.1 = PlanSection.dependencies ∧ ("PKG:".toList).isPrefixOf line then
    (st.1, { st.2 with dependencies := st.2.dependencies ++ [⟨strip (line.drop 5)⟩] })
  else st

/-- Initial parser state: section `None`, freshly reset empty plan (line 318 of
the source resets `self.execution_plan` before the loop). -/
def initState : PlanSection × ExecutionPlan :=
  (PlanSection.none, { files := [], commands := [], dependencies := [] })

/-- The loop of `_parse_plan` over an already split list of lines. -/
def parseLines (lines : List (List Char)) : ExecutionPlan :=
  (lines.foldl processLine initState).2

/-- `ProjectArchitect._parse_plan` from `src/main.py`.  `_prev` is the value
of `self.execution_plan` before the call; the method discards it by resetting
the field to an empty plan before scanning `response.split('\n')`. -/
def parse_plan (_prev : ExecutionPlan) (response : String) : ExecutionPlan :=
  parseLines (splitOnChar '\n' response.toList)

end ProjectArchitect

/-- One observable step of `_execute_plan`: a file write (stage 1), a call to
the security validator or a spawned child process with its exit code (stages 2
and 3, tagged with the loop that performed them), or the raised exception that
aborts the plan.  The `Progress` display calls and the initial
`project_dir.mkdir` are not modelled: no claim mentions them. -/
inductive Event
  | writeFile (path content : String)
  | validateDep (cmd : String)
  | spawnDep (cmd : String) (exitCode : Int)
  | validateCmd (cmd : String)
  | spawnCmd (cmd : String) (exitCode : Int)
  | abort (reason : String)
deriving DecidableEq

/-- Result of one validate-and-spawn loop of `_execute_plan`: the events it
performed, whether it ran to completion (`ok = false` means the loop raised),
and the index of the next process to spawn. -/
structure StageResult where
  events : List Event
  ok : Bool
  next : Nat
deriving DecidableEq

namespace ProjectArchitect

/-- The dependency loop of `_execute_plan` (`for pkg in ...['dependencies']`):
synthesize `npm install {pkg}`, validate it, raise on rejection, otherwise
spawn it via `subprocess.run` (whose exit code is returned by the ambient
oracle `exits`, indexed by spawn count) and continue.  The returned `result`
of `subprocess.run` is bound but never inspected in the source. -/
def run_dep_stage (exits : Nat → Int) : Nat → List String → StageResult
  | k, [] => ⟨[], true, k⟩
  | k, pkg :: rest =>
    let cmd := "npm install " ++ pkg
    let v := SecurityManager.validate_command cmd
    if v.1 then
      let r := run_dep_stage exits (k + 1) rest
      ⟨Event.validateDep cmd :: Event.spawnDep cmd (exits k) :: r.events, r.ok, r.next⟩
    else
      ⟨[Event.validateDep cmd, Event.abort v.2], false, k⟩

/-- The setup-command loop of `_execute_plan` (`for cmd in ...['commands']`):
validate the command, raise on rejection, otherwise spawn it. -/
def run_command_stage (exits : Nat → Int) : Nat → List String → StageResult
  | k, [] => ⟨[], true, k⟩
  | k, cmd :: rest =>
    let v := SecurityManager.validate_command cmd
    if v.1 then
      let r := run_command_stage exits (k + 1) rest
      ⟨Event.validateCmd cmd :: Event.spawnCmd cmd (exits k) :: r.events, r.ok, r.next⟩
    else
      ⟨[Event.validateCmd cmd, Event.abort v.2], false, k⟩

/-- `ProjectArchitect._execute_plan` from `src/main.py`, as the sequence of
observable events it performs on a filesystem where every write succeeds,
together with whether it ran to completion (`false` = an exception aborted
it).  Stage 1 writes every file, stage 2 runs the dependency loop, stage 3
(reached only if stage 2 did not raise) runs the setup-command loop. -/
def execute_plan (exits : Nat → Int) (plan : ExecutionPlan) : List Event × Bool :=
  let fileEvents := plan.files.map fun f => Event.writeFile f.path f.content
  let dep := run_dep_stage exits 0 plan.dependencies
  if dep.ok then
    let cmd := run_command_stage exits dep.next plan.commands
    (fileEvents ++ dep.events ++ cmd.events, cmd.ok)
  else
    (fileEvents ++ dep.events, false)

end ProjectArchitect

/-- Execution stage an event belongs to (files = 1, dependencies = 2,
commands = 3; the aborting exception, which ends the run, = 4). -/
def stageOf : Event → Nat
  | Event.writeFile _ _ => 1
  | Event.validateDep _ => 2
  | Event.spawnDep _ _ => 2
  | Event.validateCmd _ => 3
  | Event.spawnCmd _ _ => 3
  | Event.abort _ => 4

/-- The file writes an event list performs, in order. -/
def writesOf (l : List Event) : List (String × String) :=
  l.filterMap fun e =>
    match e with
    | Event.writeFile p c => some (p, c)
    | _ => none

/-- The setup commands an event list submits to the validator, in order. -/
def cmdValidatesOf (l : List Event) : List String :=
  l.filterMap fun e =>
    match e with
    | Event.validateCmd c => some c
    | _ => none

/-- The setup commands an event list spawns, in order. -/
def cmdSpawnsOf (l : List Event) : List String :=
  l.filterMap fun e =>
    match e with
    | Event.spawnCmd c _ => some c
    | _ => none

/-- Effect of one event on a model filesystem (an association list, most
recent write first; only file writes touch it, nothing ever deletes). -/
def applyEvent (fs : List (String × String)) : Event → List (String × String)
  | Event.writeFile p c => (p, c) :: fs
  | _ => fs

/-- The filesystem left behind by an event list, starting from empty. -/
def runFS (l : List Event) : List (String × String) := l.foldl applyEvent []

/-!  Model of where a stage-1 write lands on a POSIX filesystem.  The source
computes `file_path = project_dir / file['path']` (pathlib: an absolute right
operand replaces the root, otherwise the operands are joined) and writes there
with no containment check; the operating system then resolves `.` and `..`
segments.  `SecurityManager.sanitize_path` exists in the source but is never
called by `_execute_plan`. -/

/-- pathlib's `project_dir / path`: an absolute `path` replaces the root. -/
def writeTarget (root p : List Char) : List Char :=
  if p.head? = some '/' then p else root ++ '/' :: p

/-- One step of the operating system's lexical path resolution over segments
(held in reverse): empty and `.` segments vanish, `..` pops the previous
segment (at the filesystem root it is absorbed), anything else is entered. -/
def stepSeg (acc : List (List Char)) (s : List Char) : List (List Char) :=
  if s = [] ∨ s = ['.'] then acc
  else if s = ['.', '.'] then acc.drop 1
  else s :: acc

/-- The resolved segment list a path string denotes. -/
def resolvePath (p : List Char) : List (List Char) :=
  ((splitOnChar '/' p).foldl stepSeg []).reverse

/-- A write to `p` (relative to `root`) lands inside the project root iff the
resolved root is a prefix of the resolved write target. -/
def insideRoot (root p : List Char) : Bool :=
  (resolvePath root).isPrefixOf (resolvePath (writeTarget root p))

/-- Forget the exit code a spawn event carries (the only part of the trace the
ambient process environment chooses). -/
def eraseExit : Event → Event
  | Event.spawnDep c _ => Event.spawnDep c 0
  | Event.spawnCmd c _ => Event.spawnCmd c 0
  | e => e

/-- Every occurrence of a spawn event in `l` is guarded: however `l` is split
around a spawn, the command was accepted by the validator and the event placed
immediately before the spawn is the validator call on that very command. -/
def SpawnsGuarded (l : List Event) : Prop :=
  ∀ pre c x post,
    (l = pre ++ Event.spawnDep c x :: post →
      (SecurityManager.validate_command c).1 = true
      ∧ pre.getLast? = some (Event.validateDep c))
    ∧ (l = pre ++ Event.spawnCmd c x :: post →
      (SecurityManager.validate_command c).1 = true
      ∧ pre.getLast? = some (Event.validateCmd c))

/-- A concrete plan exercising the fail-fast path: one file, an accepted
command, then a rejected one. -/
def failFastPlan : ExecutionPlan :=
  { files := [{ path := "a.txt", content := "x" }],
    commands := ["echo hi", "sudo rm"], dependencies := [] }

/-- A concrete plan exercising both spawn kinds: one dependency install and
one setup command, all accepted. -/
def spawnPlan : ExecutionPlan :=
  { files := [], commands := ["echo hi"], dependencies := ["left-pad@1.0.0"] }

/-- A plan whose single artifact path is clean (relative, no `..`). -/
def cleanPlan : ExecutionPlan :=
  { files := [{ path := "a/b.txt", content := "x" }],
    commands := [], dependencies := [] }

/-- A path segment the operating system actually enters (neither empty nor
the `.` no-op). -/
def keepSeg (s : List Char) : Bool := !(s == [] || s == ['.'])

/-! ## The security validator (claim C1) -/

/-- Specification of the scanning loop, by induction on the pattern list. -/
theorem validateLoop_spec (c : String) (ps : List String) :
    ((SecurityManager.validateLoop c ps).1 = false ↔
      ∃ p ∈ ps, containsSub p.toList (lowerChars c.toList) = true)
    ∧ ((SecurityManager.validateLoop c ps).1 = false →
      (SecurityManager.validateLoop c ps).2 = "Dangerous command detected: " ++ c)
    ∧ ((∀ p ∈ ps, containsSub p.toList (lowerChars c.toList) = false) →
      SecurityManager.validateLoop c ps = (true, "Command validated")) := by
  induction ps with
  | nil => simp [SecurityManager.validateLoop]
  | cons p rest ih =>
    by_cases h : containsSub p.data (lowerChars c.data) = true
    · simp [SecurityManager.validateLoop, h]
    · simp only [Bool.not_eq_true] at h
      have hloop : SecurityManager.validateLoop c (p :: rest) =
          SecurityManager.validateLoop c rest := by
        simp [SecurityManager.validateLoop, h]
      rw [hloop]
      refine ⟨?_, ih.2.1, fun hall => ih.2.2 fun x hx => hall x (List.mem_cons_of_mem p hx)⟩
      rw [ih.1]
      constructor
      · rintro ⟨x, hx, hcx⟩; exact ⟨x, List.mem_cons_of_mem p hx, hcx⟩
      · rintro ⟨x, hx, hcx⟩
        rcases List.mem_cons.mp hx with rfl | hx'
        · rw [show containsSub x.toList (lowerChars c.toList) =
              containsSub x.data (lowerChars c.data) from rfl, h] at hcx
          exact absurd hcx (by decide)
        · exact ⟨x, hx', hcx⟩

/-- C1.  `validate_command` rejects (`accepted = false`, with a reason naming
the command) exactly when the lowercased command contains at least one of the
configured deny-list substrings, and accepts every command free of them all. -/
theorem validate_command_correct (c : String) :
    ((SecurityManager.validate_command c).1 = false ↔
      ∃ p ∈ SecurityManager.DANGEROUS_PATTERNS,
        containsSub p.toList (lowerChars c.toList) = true)
    ∧ ((SecurityManager.validate_command c).1 = false →
      (SecurityManager.validate_command c).2 = "Dangerous command detected: " ++ c)
    ∧ ((∀ p ∈ SecurityManager.DANGEROUS_PATTERNS,
        containsSub p.toList (lowerChars c.toList) = false) →
      SecurityManager.validate_command c = (true, "Command validated")) :=
  validateLoop_spec c SecurityManager.DANGEROUS_PATTERNS

/-- C1 witness: `sudo rm -rf /` is rejected with a reason naming it, and
`npm install left-pad` is accepted. -/
theorem validate_command_correct_witness :
    ((SecurityManager.validate_command "sudo rm -rf /").1 = false
      ∧ (SecurityManager.validate_command "sudo rm -rf /").2 =
        "Dangerous command detected: sudo rm -rf /")
    ∧ SecurityManager.validate_command "npm install left-pad" =
        (true, "Command validated") := by
  have h1 := validate_command_correct "sudo rm -rf /"
  have h2 := validate_command_correct "npm install left-pad"
  have hrej : (SecurityManager.validate_command "sudo rm -rf /").1 = false :=
    h1.1.mpr ⟨"sudo", by decide, by decide⟩
  exact ⟨⟨hrej, h1.2.1 hrej⟩, h2.2.2 (by decide)⟩

/-! ## The plan parser (claims C2, C9, C10, C7) -/

/-- C2.  Parsing the canonical six-line plan text yields exactly the expected
files, dependencies and commands. -/
theorem parse_plan_roundtrip :
    ProjectArchitect.parse_plan { files := [], commands := [], dependencies := [] }
      "// FILES\nFILE: a/b.txt => hello\n// DEPS\nPKG: left-pad@1.0.0\n// COMMANDS\nSHELL: echo hi" =
    { files := [{ path := "a/b.txt", content := "hello" }],
      commands := ["echo hi"],
      dependencies := ["left-pad@1.0.0"] } := by decide

/-- C9.  `_parse_plan` is a pure, deterministic function of the input text: the
result does not depend on the previously stored plan (the method resets it
before scanning), and re-parsing the same text — even starting from the plan
the first parse produced — yields a structurally equal plan. -/
theorem parse_plan_pure (p q : ExecutionPlan) (t : String) :
    ProjectArchitect.parse_plan p t = ProjectArchitect.parse_plan q t
    ∧ ProjectArchitect.parse_plan (ProjectArchitect.parse_plan p t) t =
        ProjectArchitect.parse_plan p t :=
  ⟨rfl, rfl⟩

/-- C10.  The parser slices entry fields at fixed offsets (`line[6:]`,
`line[7:]`, `line[5:]`) that assume one space after the tag: a tagged line in
the matching section is accepted whatever character `c` follows the colon, but
`c` — the first character of the real field when it is not a space — is
dropped from the stored command, dependency, or path. -/
theorem parse_fixed_offset_slicing (plan : ExecutionPlan) (c : Char)
    (cs l : List Char) :
    (strip l = "SHELL:".toList ++ c :: cs →
      ProjectArchitect.processLine (PlanSection.commands, plan) l =
        (PlanSection.commands,
          { plan with commands := plan.commands ++ [⟨strip cs⟩] }))
    ∧ (strip l = "PKG:".toList ++ c :: cs →
      ProjectArchitect.processLine (PlanSection.dependencies, plan) l =
        (PlanSection.dependencies,
          { plan with dependencies := plan.dependencies ++ [⟨strip cs⟩] }))
    ∧ (∀ p q, strip l = "FILE:".toList ++ c :: cs →
        splitOnce ProjectArchitect.SEP_ARROW cs = some (p, q) →
      ProjectArchitect.processLine (PlanSection.files, plan) l =
        (PlanSection.files,
          { plan with files := plan.files ++
              [{ path := ⟨strip p⟩, content := ⟨strip q⟩ }] })) := by
  refine ⟨fun h => ?_, fun h => ?_, fun p q h hsep => ?_⟩
  · unfold ProjectArchitect.processLine
    rw [h]
    rfl
  · unfold ProjectArchitect.processLine
    rw [h]
    rfl
  · unfold ProjectArchitect.processLine
    rw [h]
    show ((match splitOnce ProjectArchitect.SEP_ARROW cs with
      | some (p, q) =>
        (PlanSection.files, { plan with files := plan.files ++
            [{ path := ⟨strip p⟩, content := ⟨strip q⟩ }] })
      | none => (PlanSection.files, plan) : PlanSection × ExecutionPlan)) = _
    rw [hsep]

/-- C10 witness: `SHELL:ls` stores `s`, `PKG:x@1.0` stores `@1.0`, and
`FILE:a.txt => x` stores path `.txt` — the character after the colon is
dropped, yet each line is accepted. -/
theorem parse_fixed_offset_slicing_witness :
    (ProjectArchitect.processLine
        (PlanSection.commands, { files := [], commands := [], dependencies := [] })
        "SHELL:ls".toList =
      (PlanSection.commands,
        { files := [], commands := [] ++ [⟨strip "s".toList⟩], dependencies := [] }))
    ∧ (ProjectArchitect.processLine
        (PlanSection.dependencies, { files := [], commands := [], dependencies := [] })
        "PKG:x@1.0".toList =
      (PlanSection.dependencies,
        { files := [], commands := [], dependencies := [] ++ [⟨strip "@1.0".toList⟩] }))
    ∧ (ProjectArchitect.processLine
        (PlanSection.files, { files := [], commands := [], dependencies := [] })
        "FILE:a.txt => x".toList =
      (PlanSection.files,
        { files := [] ++ [{ path := ⟨strip ".txt".toList⟩, content := ⟨strip "x".toList⟩ }],
          commands := [], dependencies := [] })) :=
  ⟨(parse_fixed_offset_slicing { files := [], commands := [], dependencies := [] }
      'l' "s".toList "SHELL:ls".toList).1 (by decide),
   (parse_fixed_offset_slicing { files := [], commands := [], dependencies := [] }
      'x' "@1.0".toList "PKG:x@1.0".toList).2.1 (by decide),
   (parse_fixed_offset_slicing { files := [], commands := [], dependencies := [] }
      'a' ".txt => x".toList "FILE:a.txt => x".toList).2.2
      ".txt".toList "x".toList (by decide) (by decide)⟩

/-- A stripped line starting with `FILE:` can be no section marker: the three
marker checks of the loop are false on it. -/
theorem file_tag_not_marker {l : List Char}
    (h : ("FILE:".toList).isPrefixOf l = true) :
    ("// FILES".toList).isPrefixOf l = false
    ∧ ("// COMMANDS".toList).isPrefixOf l = false
    ∧ ("// DEPS".toList).isPrefixOf l = false := by
  cases l with
  | nil => simp [List.isPrefixOf] at h
  | cons c rest =>
    have hc : c = 'F' := by
      simp only [List.isPrefixOf, Bool.and_eq_true, beq_iff_eq] at h
      exact h.1.symm
    subst hc
    refine ⟨?_, ?_, ?_⟩ <;> simp [List.isPrefixOf]

/-- In the `files` section, a `FILE:` line whose remainder lacks `" => "` is
skipped: `processLine` returns its state unchanged (the Python `split` raises
`ValueError`, which the loop catches and logs). -/
theorem processLine_skips_malformed {st : PlanSection × ExecutionPlan}
    {mal : List Char}
    (hsec : st.1 = PlanSection.files)
    (htag : ("FILE:".toList).isPrefixOf (strip mal) = true)
    (hsep : splitOnce ProjectArchitect.SEP_ARROW ((strip mal).drop 6) = Option.none) :
    ProjectArchitect.processLine st mal = st := by
  obtain ⟨hm1, hm2, hm3⟩ := file_tag_not_marker htag
  unfold ProjectArchitect.processLine
  rw [if_neg (fun hc => by rw [hm1] at hc; exact absurd hc (by decide)),
    if_neg (fun hc => by rw [hm2] at hc; exact absurd hc (by decide)),
    if_neg (fun hc => by rw [hm3] at hc; exact absurd hc (by decide)),
    if_pos ⟨hsec, htag⟩, hsep]

/-- C7.  A malformed `FILE:` line (no `" => "` separator) reached in the
`files` state is skipped and parsing continues: the parsed plan is exactly the
plan of the same input with the malformed line removed. -/
theorem parse_plan_skips_malformed (pre post : List (List Char)) (mal : List Char)
    (hsec : (pre.foldl ProjectArchitect.processLine ProjectArchitect.initState).1 =
      PlanSection.files)
    (htag : ("FILE:".toList).isPrefixOf (strip mal) = true)
    (hsep : splitOnce ProjectArchitect.SEP_ARROW ((strip mal).drop 6) = Option.none) :
    ProjectArchitect.parseLines (pre ++ mal :: post) =
      ProjectArchitect.parseLines (pre ++ post) := by
  unfold ProjectArchitect.parseLines
  rw [List.foldl_append, List.foldl_append, List.foldl_cons,
    processLine_skips_malformed hsec htag hsep]

/-- C7 witness: with the section already `files`, the separator-free line
`FILE: broken` is skipped and the following valid line still parsed. -/
theorem parse_plan_skips_malformed_witness :
    ((["// FILES".toList].foldl ProjectArchitect.processLine
        ProjectArchitect.initState).1 = PlanSection.files)
    ∧ ("FILE:".toList).isPrefixOf (strip "FILE: broken".toList) = true
    ∧ splitOnce ProjectArchitect.SEP_ARROW
        ((strip "FILE: broken".toList).drop 6) = Option.none
    ∧ ProjectArchitect.parseLines
        (["// FILES".toList] ++ "FILE: broken".toList :: ["FILE: ok.txt => y".toList]) =
      ProjectArchitect.parseLines (["// FILES".toList] ++ ["FILE: ok.txt => y".toList]) :=
  ⟨by decide, by decide, by decide,
   parse_plan_skips_malformed ["// FILES".toList] ["FILE: ok.txt => y".toList]
     "FILE: broken".toList (by decide) (by decide) (by decide)⟩

/-! ## The plan executor: structural lemmas -/

namespace ProjectArchitect

theorem run_dep_stage_nil (exits : Nat → Int) (k : Nat) :
    run_dep_stage exits k [] = ⟨[], true, k⟩ := rfl

theorem run_dep_stage_cons_accept (exits : Nat → Int) (k : Nat) (pkg : String)
    (rest : List String)
    (h : (SecurityManager.validate_command ("npm install " ++ pkg)).1 = true) :
    run_dep_stage exits k (pkg :: rest) =
      ⟨Event.validateDep ("npm install " ++ pkg) ::
        Event.spawnDep ("npm install " ++ pkg) (exits k) ::
        (run_dep_stage exits (k + 1) rest).events,
       (run_dep_stage exits (k + 1) rest).ok,
       (run_dep_stage exits (k + 1) rest).next⟩ := by
  rw [run_dep_stage]
  simp [h]

theorem run_dep_stage_cons_reject (exits : Nat → Int) (k : Nat) (pkg : String)
    (rest : List String)
    (h : (SecurityManager.validate_command ("npm install " ++ pkg)).1 = false) :
    run_dep_stage exits k (pkg :: rest) =
      ⟨[Event.validateDep ("npm install " ++ pkg),
        Event.abort (SecurityManager.validate_command ("npm install " ++ pkg)).2],
       false, k⟩ := by
  rw [run_dep_stage]
  simp [h]

theorem run_command_stage_nil (exits : Nat → Int) (k : Nat) :
    run_command_stage exits k [] = ⟨[], true, k⟩ := rfl

theorem run_command_stage_cons_accept (exits : Nat → Int) (k : Nat) (cmd : String)
    (rest : List String)
    (h : (SecurityManager.validate_command cmd).1 = true) :
    run_command_stage exits k (cmd :: rest) =
      ⟨Event.validateCmd cmd :: Event.spawnCmd cmd (exits k) ::
        (run_command_stage exits (k + 1) rest).events,
       (run_command_stage exits (k + 1) rest).ok,
       (run_command_stage exits (k + 1) rest).next⟩ := by
  rw [run_command_stage]
  simp [h]

theorem run_command_stage_cons_reject (exits : Nat → Int) (k : Nat) (cmd : String)
    (rest : List String)
    (h : (SecurityManager.validate_command cmd).1 = false) :
    run_command_stage exits k (cmd :: rest) =
      ⟨[Event.validateCmd cmd, Event.abort (SecurityManager.validate_command cmd).2],
       false, k⟩ := by
  rw [run_command_stage]
  simp [h]

/-- Every event of the dependency loop is a validator call on, or a spawn of,
a synthesized `npm install` command for a listed dependency — or the aborting
exception; spawned commands were accepted. -/
theorem run_dep_stage_shape (exits : Nat → Int) (k : Nat) (l : List String) :
    ∀ e ∈ (run_dep_stage exits k l).events,
      (∃ d ∈ l, e = Event.validateDep ("npm install " ++ d))
      ∨ (∃ d ∈ l, ∃ x, e = Event.spawnDep ("npm install " ++ d) x
          ∧ (SecurityManager.validate_command ("npm install " ++ d)).1 = true)
      ∨ (∃ r, e = Event.abort r) := by
  induction l generalizing k with
  | nil => simp [run_dep_stage_nil]
  | cons pkg rest ih =>
    intro e he
    rcases Bool.eq_false_or_eq_true
        (SecurityManager.validate_command ("npm install " ++ pkg)).1 with h | h
    · rw [run_dep_stage_cons_accept exits k pkg rest h] at he
      simp only [List.mem_cons] at he
      rcases he with rfl | rfl | he
      · exact Or.inl ⟨pkg, by simp, rfl⟩
      · exact Or.inr (Or.inl ⟨pkg, by simp, exits k, rfl, h⟩)
      · rcases ih (k + 1) e he with ⟨d, hd, hde⟩ | ⟨d, hd, x, hx⟩ | hr
        · exact Or.inl ⟨d, List.mem_cons_of_mem pkg hd, hde⟩
        · exact Or.inr (Or.inl ⟨d, List.mem_cons_of_mem pkg hd, x, hx⟩)
        · exact Or.inr (Or.inr hr)
    · rw [run_dep_stage_cons_reject exits k pkg rest h] at he
      simp only [List.mem_cons, List.not_mem_nil, or_false] at he
      rcases he with rfl | rfl
      · exact Or.inl ⟨pkg, by simp, rfl⟩
      · exact Or.inr (Or.inr ⟨_, rfl⟩)

/-- Every event of the setup-command loop is a validator call on, or a spawn
of, a listed command — or the aborting exception; spawned commands were
accepted. -/
theorem run_command_stage_shape (exits : Nat → Int) (k : Nat) (l : List String) :
    ∀ e ∈ (run_command_stage exits k l).events,
      (∃ c ∈ l, e = Event.validateCmd c)
      ∨ (∃ c ∈ l, ∃ x, e = Event.spawnCmd c x
          ∧ (SecurityManager.validate_command c).1 = true)
      ∨ (∃ r, e = Event.abort r) := by
  induction l generalizing k with
  | nil => simp [run_command_stage_nil]
  | cons cmd rest ih =>
    intro e he
    rcases Bool.eq_false_or_eq_true (SecurityManager.validate_command cmd).1 with h | h
    · rw [run_command_stage_cons_accept exits k cmd rest h] at he
      simp only [List.mem_cons] at he
      rcases he with rfl | rfl | he
      · exact Or.inl ⟨cmd, by simp, rfl⟩
      · exact Or.inr (Or.inl ⟨cmd, by simp, exits k, rfl, h⟩)
      · rcases ih (k + 1) e he with ⟨c, hc, hce⟩ | ⟨c, hc, x, hx⟩ | hr
        · exact Or.inl ⟨c, List.mem_cons_of_mem cmd hc, hce⟩
        · exact Or.inr (Or.inl ⟨c, List.mem_cons_of_mem cmd hc, x, hx⟩)
        · exact Or.inr (Or.inr hr)
    · rw [run_command_stage_cons_reject exits k cmd rest h] at he
      simp only [List.mem_cons, List.not_mem_nil, or_false] at he
      rcases he with rfl | rfl
      · exact Or.inl ⟨cmd, by simp, rfl⟩
      · exact Or.inr (Or.inr ⟨_, rfl⟩)

end ProjectArchitect

namespace ProjectArchitect

theorem run_dep_stage_stage_ge (exits : Nat → Int) (k : Nat) (l : List String) :
    ∀ e ∈ (run_dep_stage exits k l).events, 2 ≤ stageOf e := by
  intro e he
  rcases run_dep_stage_shape exits k l e he with ⟨d, _, rfl⟩ | ⟨d, _, x, rfl, _⟩ | ⟨r, rfl⟩ <;>
    simp [stageOf]

theorem run_command_stage_stage_ge (exits : Nat → Int) (k : Nat) (l : List String) :
    ∀ e ∈ (run_command_stage exits k l).events, 3 ≤ stageOf e := by
  intro e he
  rcases run_command_stage_shape exits k l e he with ⟨c, _, rfl⟩ | ⟨c, _, x, rfl, _⟩ | ⟨r, rfl⟩ <;>
    simp [stageOf]

theorem run_dep_stage_pairwise (exits : Nat → Int) (k : Nat) (l : List String) :
    List.Pairwise (fun a b => stageOf a ≤ stageOf b) (run_dep_stage exits k l).events := by
  induction l generalizing k with
  | nil => simp [run_dep_stage_nil]
  | cons pkg rest ih =>
    rcases Bool.eq_false_or_eq_true
        (SecurityManager.validate_command ("npm install " ++ pkg)).1 with h | h
    · rw [run_dep_stage_cons_accept exits k pkg rest h]
      refine List.Pairwise.cons ?_ (List.Pairwise.cons ?_ (ih (k + 1)))
      · intro b hb
        rcases List.mem_cons.mp hb with rfl | hb'
        · simp [stageOf]
        · exact le_trans (by simp [stageOf]) (run_dep_stage_stage_ge exits (k + 1) rest b hb')
      · intro b hb
        exact le_trans (by simp [stageOf]) (run_dep_stage_stage_ge exits (k + 1) rest b hb)
    · rw [run_dep_stage_cons_reject exits k pkg rest h]
      simp [stageOf]

theorem run_command_stage_pairwise (exits : Nat → Int) (k : Nat) (l : List String) :
    List.Pairwise (fun a b => stageOf a ≤ stageOf b) (run_command_stage exits k l).events := by
  induction l generalizing k with
  | nil => simp [run_command_stage_nil]
  | cons cmd rest ih =>
    rcases Bool.eq_false_or_eq_true (SecurityManager.validate_command cmd).1 with h | h
    · rw [run_command_stage_cons_accept exits k cmd rest h]
      refine List.Pairwise.cons ?_ (List.Pairwise.cons ?_ (ih (k + 1)))
      · intro b hb
        rcases List.mem_cons.mp hb with rfl | hb'
        · simp [stageOf]
        · exact le_trans (by simp [stageOf]) (run_command_stage_stage_ge exits (k + 1) rest b hb')
      · intro b hb
        exact le_trans (by simp [stageOf]) (run_command_stage_stage_ge exits (k + 1) rest b hb)
    · rw [run_command_stage_cons_reject exits k cmd rest h]
      simp [stageOf]

theorem run_dep_stage_ok_stages (exits : Nat → Int) (k : Nat) (l : List String)
    (hok : (run_dep_stage exits k l).ok = true) :
    ∀ e ∈ (run_dep_stage exits k l).events, stageOf e = 2 := by
  induction l generalizing k with
  | nil => simp [run_dep_stage_nil]
  | cons pkg rest ih =>
    rcases Bool.eq_false_or_eq_true
        (SecurityManager.validate_command ("npm install " ++ pkg)).1 with h | h
    · rw [run_dep_stage_cons_accept exits k pkg rest h] at hok ⊢
      intro e he
      rcases List.mem_cons.mp he with rfl | he'
      · simp [stageOf]
      · rcases List.mem_cons.mp he' with rfl | he''
        · simp [stageOf]
        · exact ih (k + 1) hok e he''
    · rw [run_dep_stage_cons_reject exits k pkg rest h] at hok
      exact absurd hok (by simp)

theorem execute_plan_of_dep_ok (exits : Nat → Int) (plan : ExecutionPlan)
    (h : (run_dep_stage exits 0 plan.dependencies).ok = true) :
    execute_plan exits plan =
      (plan.files.map (fun f => Event.writeFile f.path f.content) ++
        (run_dep_stage exits 0 plan.dependencies).events ++
        (run_command_stage exits (run_dep_stage exits 0 plan.dependencies).next
          plan.commands).events,
       (run_command_stage exits (run_dep_stage exits 0 plan.dependencies).next
          plan.commands).ok) := by
  rw [execute_plan]
  simp [h]

theorem execute_plan_of_dep_fail (exits : Nat → Int) (plan : ExecutionPlan)
    (h : (run_dep_stage exits 0 plan.dependencies).ok = false) :
    execute_plan exits plan =
      (plan.files.map (fun f => Event.writeFile f.path f.content) ++
        (run_dep_stage exits 0 plan.dependencies).events,
       false) := by
  rw [execute_plan]
  simp [h]

end ProjectArchitect

theorem writesOf_map_writeFile (files : List FileArtifact) :
    writesOf (files.map fun f => Event.writeFile f.path f.content) =
      files.map fun f => (f.path, f.content) := by
  induction files with
  | nil => rfl
  | cons f rest ih =>
    have hcons : writesOf (List.map (fun f => Event.writeFile f.path f.content) (f :: rest)) =
        (f.path, f.content) ::
          writesOf (List.map (fun f => Event.writeFile f.path f.content) rest) := rfl
    rw [hcons, ih, List.map_cons]

theorem writesOf_run_dep_stage (exits : Nat → Int) (k : Nat) (l : List String) :
    writesOf (ProjectArchitect.run_dep_stage exits k l).events = [] := by
  rw [writesOf, List.filterMap_eq_nil_iff]
  intro e he
  rcases ProjectArchitect.run_dep_stage_shape exits k l e he with
    ⟨d, _, rfl⟩ | ⟨d, _, x, rfl, _⟩ | ⟨r, rfl⟩ <;> rfl

theorem writesOf_run_command_stage (exits : Nat → Int) (k : Nat) (l : List String) :
    writesOf (ProjectArchitect.run_command_stage exits k l).events = [] := by
  rw [writesOf, List.filterMap_eq_nil_iff]
  intro e he
  rcases ProjectArchitect.run_command_stage_shape exits k l e he with
    ⟨c, _, rfl⟩ | ⟨c, _, x, rfl, _⟩ | ⟨r, rfl⟩ <;> rfl

/-- C5.  `_execute_plan` performs its three stages in the fixed order files,
dependencies, commands: along the (strictly sequential) event trace the stage
number never decreases, so no dependency install begins before every file
write and no setup command before the dependency loop completes; moreover the
file writes performed are exactly the plan's files, in list order. -/
theorem execute_plan_stage_order (exits : Nat → Int) (plan : ExecutionPlan) :
    List.Pairwise (fun a b => stageOf a ≤ stageOf b)
      (ProjectArchitect.execute_plan exits plan).1
    ∧ writesOf (ProjectArchitect.execute_plan exits plan).1 =
        plan.files.map fun f => (f.path, f.content) := by
  have hfile : ∀ e ∈ plan.files.map (fun f => Event.writeFile f.path f.content),
      stageOf e = 1 := by
    intro e he
    rcases List.mem_map.mp he with ⟨f, _, rfl⟩
    rfl
  have hfilePW : List.Pairwise (fun a b => stageOf a ≤ stageOf b)
      (plan.files.map fun f => Event.writeFile f.path f.content) :=
    List.pairwise_of_forall_mem_list fun a ha b hb => by
      rw [hfile a ha, hfile b hb]
  rcases Bool.eq_false_or_eq_true
      (ProjectArchitect.run_dep_stage exits 0 plan.dependencies).ok with h | h
  · rw [ProjectArchitect.execute_plan_of_dep_ok exits plan h]
    constructor
    · rw [List.append_assoc, List.pairwise_append]
      refine ⟨hfilePW, List.pairwise_append.mpr
        ⟨ProjectArchitect.run_dep_stage_pairwise exits 0 plan.dependencies,
         ProjectArchitect.run_command_stage_pairwise exits _ plan.commands, ?_⟩, ?_⟩
      · intro a ha b hb
        rw [ProjectArchitect.run_dep_stage_ok_stages exits 0 plan.dependencies h a ha]
        exact le_trans (by norm_num)
          (ProjectArchitect.run_command_stage_stage_ge exits _ plan.commands b hb)
      · intro a ha b hb
        rw [hfile a ha]
        rcases List.mem_append.mp hb with hb' | hb'
        · exact le_trans (by norm_num)
            (ProjectArchitect.run_dep_stage_stage_ge exits 0 plan.dependencies b hb')
        · exact le_trans (by norm_num)
            (ProjectArchitect.run_command_stage_stage_ge exits _ plan.commands b hb')
    · rw [show writesOf (plan.files.map (fun f => Event.writeFile f.path f.content) ++
          (ProjectArchitect.run_dep_stage exits 0 plan.dependencies).events ++
          (ProjectArchitect.run_command_stage exits
            (ProjectArchitect.run_dep_stage exits 0 plan.dependencies).next
            plan.commands).events) =
          writesOf (plan.files.map fun f => Event.writeFile f.path f.content) ++
          writesOf (ProjectArchitect.run_dep_stage exits 0 plan.dependencies).events ++
          writesOf (ProjectArchitect.run_command_stage exits
            (ProjectArchitect.run_dep_stage exits 0 plan.dependencies).next
            plan.commands).events
        from by simp [writesOf, List.filterMap_append],
        writesOf_map_writeFile, writesOf_run_dep_stage, writesOf_run_command_stage,
        List.append_nil, List.append_nil]
  · rw [ProjectArchitect.execute_plan_of_dep_fail exits plan h]
    constructor
    · rw [List.pairwise_append]
      refine ⟨hfilePW,
        ProjectArchitect.run_dep_stage_pairwise exits 0 plan.dependencies, ?_⟩
      intro a ha b hb
      rw [hfile a ha]
      exact le_trans (by norm_num)
        (ProjectArchitect.run_dep_stage_stage_ge exits 0 plan.dependencies b hb)
    · rw [show writesOf (plan.files.map (fun f => Event.writeFile f.path f.content) ++
          (ProjectArchitect.run_dep_stage exits 0 plan.dependencies).events) =
          writesOf (plan.files.map fun f => Event.writeFile f.path f.content) ++
          writesOf (ProjectArchitect.run_dep_stage exits 0 plan.dependencies).events
        from by simp [writesOf, List.filterMap_append],
        writesOf_map_writeFile, writesOf_run_dep_stage, List.append_nil]

theorem cmdValidatesOf_run_dep_stage (exits : Nat → Int) (k : Nat) (l : List String) :
    cmdValidatesOf (ProjectArchitect.run_dep_stage exits k l).events = [] := by
  rw [cmdValidatesOf, List.filterMap_eq_nil_iff]
  intro e he
  rcases ProjectArchitect.run_dep_stage_shape exits k l e he with
    ⟨d, _, rfl⟩ | ⟨d, _, x, rfl, _⟩ | ⟨r, rfl⟩ <;> rfl

theorem cmdSpawnsOf_run_dep_stage (exits : Nat → Int) (k : Nat) (l : List String) :
    cmdSpawnsOf (ProjectArchitect.run_dep_stage exits k l).events = [] := by
  rw [cmdSpawnsOf, List.filterMap_eq_nil_iff]
  intro e he
  rcases ProjectArchitect.run_dep_stage_shape exits k l e he with
    ⟨d, _, rfl⟩ | ⟨d, _, x, rfl, _⟩ | ⟨r, rfl⟩ <;> rfl

theorem cmdValidatesOf_map_writeFile (files : List FileArtifact) :
    cmdValidatesOf (files.map fun f => Event.writeFile f.path f.content) = [] := by
  rw [cmdValidatesOf, List.filterMap_eq_nil_iff]
  intro e he
  rcases List.mem_map.mp he with ⟨f, _, rfl⟩
  rfl

theorem cmdSpawnsOf_map_writeFile (files : List FileArtifact) :
    cmdSpawnsOf (files.map fun f => Event.writeFile f.path f.content) = [] := by
  rw [cmdSpawnsOf, List.filterMap_eq_nil_iff]
  intro e he
  rcases List.mem_map.mp he with ⟨f, _, rfl⟩
  rfl

/-- The setup-command loop on a list whose first rejected element is `bad`:
it raises, validates exactly the accepted prefix plus `bad`, and spawns
exactly the accepted prefix. -/
theorem run_command_stage_fail (exits : Nat → Int) (k : Nat) (pre post : List String)
    (bad : String)
    (hpre : ∀ c ∈ pre, (SecurityManager.validate_command c).1 = true)
    (hbad : (SecurityManager.validate_command bad).1 = false) :
    (ProjectArchitect.run_command_stage exits k (pre ++ bad :: post)).ok = false
    ∧ cmdValidatesOf (ProjectArchitect.run_command_stage exits k (pre ++ bad :: post)).events =
        pre ++ [bad]
    ∧ cmdSpawnsOf (ProjectArchitect.run_command_stage exits k (pre ++ bad :: post)).events =
        pre := by
  induction pre generalizing k with
  | nil =>
    rw [List.nil_append, ProjectArchitect.run_command_stage_cons_reject exits k bad post hbad]
    exact ⟨rfl, rfl, rfl⟩
  | cons c pre' ih =>
    have hc : (SecurityManager.validate_command c).1 = true := hpre c (by simp)
    have hpre' : ∀ c' ∈ pre', (SecurityManager.validate_command c').1 = true :=
      fun c' hc' => hpre c' (List.mem_cons_of_mem c hc')
    rw [List.cons_append, ProjectArchitect.run_command_stage_cons_accept exits k c _ hc]
    obtain ⟨ihok, ihval, ihspawn⟩ := ih (k + 1) hpre'
    refine ⟨ihok, ?_, ?_⟩
    · have hcons : cmdValidatesOf (Event.validateCmd c :: Event.spawnCmd c (exits k) ::
          (ProjectArchitect.run_command_stage exits (k + 1) (pre' ++ bad :: post)).events) =
          c :: cmdValidatesOf
            (ProjectArchitect.run_command_stage exits (k + 1) (pre' ++ bad :: post)).events := rfl
      rw [hcons, ihval, List.cons_append]
    · have hcons : cmdSpawnsOf (Event.validateCmd c :: Event.spawnCmd c (exits k) ::
          (ProjectArchitect.run_command_stage exits (k + 1) (pre' ++ bad :: post)).events) =
          c :: cmdSpawnsOf
            (ProjectArchitect.run_command_stage exits (k + 1) (pre' ++ bad :: post)).events := rfl
      rw [hcons, ihspawn]

/-- The model filesystem an event list leaves behind is its write list,
most recent first. -/
theorem foldl_applyEvent (l : List Event) (fs : List (String × String)) :
    l.foldl applyEvent fs = (writesOf l).reverse ++ fs := by
  induction l generalizing fs with
  | nil => rfl
  | cons e rest ih =>
    cases e with
    | writeFile p c =>
      have h1 : (Event.writeFile p c :: rest).foldl applyEvent fs =
          rest.foldl applyEvent ((p, c) :: fs) := rfl
      have h2 : writesOf (Event.writeFile p c :: rest) = (p, c) :: writesOf rest := rfl
      rw [h1, h2, ih, List.reverse_cons, List.append_assoc, List.singleton_append]
    | validateDep c => rw [show writesOf (Event.validateDep c :: rest) = writesOf rest from rfl]; exact ih fs
    | spawnDep c x => rw [show writesOf (Event.spawnDep c x :: rest) = writesOf rest from rfl]; exact ih fs
    | validateCmd c => rw [show writesOf (Event.validateCmd c :: rest) = writesOf rest from rfl]; exact ih fs
    | spawnCmd c x => rw [show writesOf (Event.spawnCmd c x :: rest) = writesOf rest from rfl]; exact ih fs
    | abort r => rw [show writesOf (Event.abort r :: rest) = writesOf rest from rfl]; exact ih fs

theorem lookup_of_mem_keys {l : List (String × String)} {a : String}
    (h : ∃ b, (a, b) ∈ l) : ∃ b, l.lookup a = some b := by
  induction l with
  | nil => rcases h with ⟨b, hb⟩; cases hb
  | cons kv rest ih =>
    by_cases hk : a = kv.1
    · exact ⟨kv.2, by simp [List.lookup, hk]⟩
    · rcases h with ⟨b, hb⟩
      rcases List.mem_cons.mp hb with heq | hmem
      · exact absurd (congrArg Prod.fst heq) hk
      · rcases ih ⟨b, hmem⟩ with ⟨b', hb'⟩
        refine ⟨b', ?_⟩
        have hbeq : (a == kv.1) = false := beq_false_of_ne hk
        cases kv with
        | mk k v => simpa [List.lookup, hbeq] using hb'

theorem writesOf_append (a b : List Event) :
    writesOf (a ++ b) = writesOf a ++ writesOf b :=
  List.filterMap_append a b _

theorem cmdValidatesOf_append (a b : List Event) :
    cmdValidatesOf (a ++ b) = cmdValidatesOf a ++ cmdValidatesOf b :=
  List.filterMap_append a b _

theorem cmdSpawnsOf_append (a b : List Event) :
    cmdSpawnsOf (a ++ b) = cmdSpawnsOf a ++ cmdSpawnsOf b :=
  List.filterMap_append a b _

/-- Stage 1 of the executor writes exactly the plan's files, whatever happens
in the later stages. -/
theorem writesOf_execute_plan (exits : Nat → Int) (plan : ExecutionPlan) :
    writesOf (ProjectArchitect.execute_plan exits plan).1 =
      plan.files.map fun f => (f.path, f.content) := by
  rcases Bool.eq_false_or_eq_true
      (ProjectArchitect.run_dep_stage exits 0 plan.dependencies).ok with h | h
  · rw [ProjectArchitect.execute_plan_of_dep_ok exits plan h, List.append_assoc,
      writesOf_append, writesOf_append, writesOf_map_writeFile,
      writesOf_run_dep_stage, writesOf_run_command_stage, List.append_nil,
      List.append_nil]
  · rw [ProjectArchitect.execute_plan_of_dep_fail exits plan h, writesOf_append,
      writesOf_map_writeFile, writesOf_run_dep_stage, List.append_nil]

/-- C4.  If the command list splits as `pre ++ bad :: post` with every command
of `pre` accepted and `bad` rejected, execution raises (result `false`), the
commands submitted to the validator form a prefix of `pre ++ [bad]` and the
commands spawned a prefix of `pre` (so nothing after `bad` is validated or
spawned), while every file of stage 1 has been written and is still present on
the resulting filesystem — no rollback. -/
theorem execute_plan_fail_fast (exits : Nat → Int) (plan : ExecutionPlan)
    (pre post : List String) (bad : String)
    (hsplit : plan.commands = pre ++ bad :: post)
    (hpre : ∀ c ∈ pre, (SecurityManager.validate_command c).1 = true)
    (hbad : (SecurityManager.validate_command bad).1 = false) :
    (ProjectArchitect.execute_plan exits plan).2 = false
    ∧ writesOf (ProjectArchitect.execute_plan exits plan).1 =
        plan.files.map (fun f => (f.path, f.content))
    ∧ cmdValidatesOf (ProjectArchitect.execute_plan exits plan).1 <+: pre ++ [bad]
    ∧ cmdSpawnsOf (ProjectArchitect.execute_plan exits plan).1 <+: pre
    ∧ ∀ f ∈ plan.files, ∃ cont,
        (runFS (ProjectArchitect.execute_plan exits plan).1).lookup f.path =
          some cont := by
  have hwrites := writesOf_execute_plan exits plan
  have hfs : ∀ f ∈ plan.files, ∃ cont,
      (runFS (ProjectArchitect.execute_plan exits plan).1).lookup f.path =
        some cont := by
    intro f hf
    apply lookup_of_mem_keys
    refine ⟨f.content, ?_⟩
    rw [runFS, foldl_applyEvent, List.append_nil, List.mem_reverse, hwrites]
    exact List.mem_map.mpr ⟨f, hf, rfl⟩
  rcases Bool.eq_false_or_eq_true
      (ProjectArchitect.run_dep_stage exits 0 plan.dependencies).ok with h | h
  · obtain ⟨fok, fval, fspawn⟩ := run_command_stage_fail exits
      (ProjectArchitect.run_dep_stage exits 0 plan.dependencies).next pre post bad
      hpre hbad
    refine ⟨?_, hwrites, ?_, ?_, hfs⟩
    · rw [ProjectArchitect.execute_plan_of_dep_ok exits plan h, hsplit]
      exact fok
    · rw [ProjectArchitect.execute_plan_of_dep_ok exits plan h, hsplit,
        List.append_assoc, cmdValidatesOf_append, cmdValidatesOf_append,
        cmdValidatesOf_map_writeFile, cmdValidatesOf_run_dep_stage, fval,
        List.nil_append, List.nil_append]
    · rw [ProjectArchitect.execute_plan_of_dep_ok exits plan h, hsplit,
        List.append_assoc, cmdSpawnsOf_append, cmdSpawnsOf_append,
        cmdSpawnsOf_map_writeFile, cmdSpawnsOf_run_dep_stage, fspawn,
        List.nil_append, List.nil_append]
  · refine ⟨?_, hwrites, ?_, ?_, hfs⟩
    · rw [ProjectArchitect.execute_plan_of_dep_fail exits plan h]
    · rw [ProjectArchitect.execute_plan_of_dep_fail exits plan h,
        cmdValidatesOf_append, cmdValidatesOf_map_writeFile,
        cmdValidatesOf_run_dep_stage]
      exact List.nil_prefix
    · rw [ProjectArchitect.execute_plan_of_dep_fail exits plan h,
        cmdSpawnsOf_append, cmdSpawnsOf_map_writeFile, cmdSpawnsOf_run_dep_stage]
      exact List.nil_prefix

/-- C4 witness: `failFastPlan` aborts at `sudo rm`, validates both commands,
spawns only `echo hi`, and keeps `a.txt` on the filesystem. -/
theorem execute_plan_fail_fast_witness :
    (failFastPlan.commands = ["echo hi"] ++ "sudo rm" :: [])
    ∧ (∀ c ∈ ["echo hi"], (SecurityManager.validate_command c).1 = true)
    ∧ (SecurityManager.validate_command "sudo rm").1 = false
    ∧ ((ProjectArchitect.execute_plan (fun _ => 0) failFastPlan).2 = false
      ∧ writesOf (ProjectArchitect.execute_plan (fun _ => 0) failFastPlan).1 =
          failFastPlan.files.map (fun f => (f.path, f.content))
      ∧ cmdValidatesOf (ProjectArchitect.execute_plan (fun _ => 0) failFastPlan).1 <+:
          ["echo hi"] ++ ["sudo rm"]
      ∧ cmdSpawnsOf (ProjectArchitect.execute_plan (fun _ => 0) failFastPlan).1 <+:
          ["echo hi"]
      ∧ ∀ f ∈ failFastPlan.files, ∃ cont,
          (runFS (ProjectArchitect.execute_plan (fun _ => 0) failFastPlan).1).lookup
            f.path = some cont) :=
  ⟨rfl, by decide, by decide,
   execute_plan_fail_fast (fun _ => 0) failFastPlan ["echo hi"] [] "sudo rm" rfl
     (by decide) (by decide)⟩

namespace ProjectArchitect

theorem run_dep_stage_exit_oracle_irrelevant (e1 e2 : Nat → Int) (k : Nat)
    (l : List String) :
    ((run_dep_stage e1 k l).events.map eraseExit =
      (run_dep_stage e2 k l).events.map eraseExit)
    ∧ (run_dep_stage e1 k l).ok = (run_dep_stage e2 k l).ok
    ∧ (run_dep_stage e1 k l).next = (run_dep_stage e2 k l).next := by
  induction l generalizing k with
  | nil => exact ⟨rfl, rfl, rfl⟩
  | cons pkg rest ih =>
    rcases Bool.eq_false_or_eq_true
        (SecurityManager.validate_command ("npm install " ++ pkg)).1 with h | h
    · rw [run_dep_stage_cons_accept e1 k pkg rest h,
        run_dep_stage_cons_accept e2 k pkg rest h]
      obtain ⟨ihev, ihok, ihnext⟩ := ih (k + 1)
      refine ⟨?_, ihok, ihnext⟩
      simp only [List.map_cons]
      rw [ihev]
      rfl
    · rw [run_dep_stage_cons_reject e1 k pkg rest h,
        run_dep_stage_cons_reject e2 k pkg rest h]
      exact ⟨rfl, rfl, rfl⟩

theorem run_command_stage_exit_oracle_irrelevant (e1 e2 : Nat → Int) (k : Nat)
    (l : List String) :
    ((run_command_stage e1 k l).events.map eraseExit =
      (run_command_stage e2 k l).events.map eraseExit)
    ∧ (run_command_stage e1 k l).ok = (run_command_stage e2 k l).ok := by
  induction l generalizing k with
  | nil => exact ⟨rfl, rfl⟩
  | cons cmd rest ih =>
    rcases Bool.eq_false_or_eq_true (SecurityManager.validate_command cmd).1 with h | h
    · rw [run_command_stage_cons_accept e1 k cmd rest h,
        run_command_stage_cons_accept e2 k cmd rest h]
      obtain ⟨ihev, ihok⟩ := ih (k + 1)
      refine ⟨?_, ihok⟩
      simp only [List.map_cons]
      rw [ihev]
      rfl
    · rw [run_command_stage_cons_reject e1 k cmd rest h,
        run_command_stage_cons_reject e2 k cmd rest h]
      exact ⟨rfl, rfl⟩

theorem run_dep_stage_all_accepted (exits : Nat → Int) (k : Nat) (l : List String)
    (h : ∀ d ∈ l, (SecurityManager.validate_command ("npm install " ++ d)).1 = true) :
    (run_dep_stage exits k l).ok = true := by
  induction l generalizing k with
  | nil => rfl
  | cons pkg rest ih =>
    rw [run_dep_stage_cons_accept exits k pkg rest (h pkg (by simp))]
    exact ih (k + 1) fun d hd => h d (List.mem_cons_of_mem pkg hd)

theorem run_command_stage_all_accepted (exits : Nat → Int) (k : Nat) (l : List String)
    (h : ∀ c ∈ l, (SecurityManager.validate_command c).1 = true) :
    (run_command_stage exits k l).ok = true := by
  induction l generalizing k with
  | nil => rfl
  | cons cmd rest ih =>
    rw [run_command_stage_cons_accept exits k cmd rest (h cmd (by simp))]
    exact ih (k + 1) fun c hc => h c (List.mem_cons_of_mem cmd hc)

end ProjectArchitect

/-- C8.  `_execute_plan` never inspects the exit codes of the processes it
spawns: the event trace (up to the codes themselves) and the outcome are the
same under any two exit-code oracles, and when every install and setup
command passes validation the plan completes as a success whatever the
processes returned. -/
theorem execute_plan_ignores_exit_codes (plan : ExecutionPlan) (e1 e2 : Nat → Int) :
    ((ProjectArchitect.execute_plan e1 plan).1.map eraseExit =
      (ProjectArchitect.execute_plan e2 plan).1.map eraseExit)
    ∧ (ProjectArchitect.execute_plan e1 plan).2 =
        (ProjectArchitect.execute_plan e2 plan).2
    ∧ ((∀ d ∈ plan.dependencies,
          (SecurityManager.validate_command ("npm install " ++ d)).1 = true) →
       (∀ c ∈ plan.commands, (SecurityManager.validate_command c).1 = true) →
       (ProjectArchitect.execute_plan e1 plan).2 = true) := by
  obtain ⟨hdev, hdok, hdnext⟩ :=
    ProjectArchitect.run_dep_stage_exit_oracle_irrelevant e1 e2 0 plan.dependencies
  refine ⟨?_, ?_, ?_⟩
  · rcases Bool.eq_false_or_eq_true
        (ProjectArchitect.run_dep_stage e1 0 plan.dependencies).ok with h | h
    · obtain ⟨hcev, _⟩ := ProjectArchitect.run_command_stage_exit_oracle_irrelevant e1 e2
        (ProjectArchitect.run_dep_stage e1 0 plan.dependencies).next plan.commands
      rw [ProjectArchitect.execute_plan_of_dep_ok e1 plan h,
        ProjectArchitect.execute_plan_of_dep_ok e2 plan (hdok ▸ h),
        List.map_append, List.map_append, List.map_append, List.map_append,
        hdev, ← hdnext, hcev]
    · rw [ProjectArchitect.execute_plan_of_dep_fail e1 plan h,
        ProjectArchitect.execute_plan_of_dep_fail e2 plan (hdok ▸ h),
        List.map_append, List.map_append, hdev]
  · rcases Bool.eq_false_or_eq_true
        (ProjectArchitect.run_dep_stage e1 0 plan.dependencies).ok with h | h
    · obtain ⟨_, hcok⟩ := ProjectArchitect.run_command_stage_exit_oracle_irrelevant e1 e2
        (ProjectArchitect.run_dep_stage e1 0 plan.dependencies).next plan.commands
      rw [ProjectArchitect.execute_plan_of_dep_ok e1 plan h,
        ProjectArchitect.execute_plan_of_dep_ok e2 plan (hdok ▸ h), ← hdnext, hcok]
    · rw [ProjectArchitect.execute_plan_of_dep_fail e1 plan h,
        ProjectArchitect.execute_plan_of_dep_fail e2 plan (hdok ▸ h)]
  · intro hdeps hcmds
    have h : (ProjectArchitect.run_dep_stage e1 0 plan.dependencies).ok = true :=
      ProjectArchitect.run_dep_stage_all_accepted e1 0 plan.dependencies hdeps
    rw [ProjectArchitect.execute_plan_of_dep_ok e1 plan h]
    exact ProjectArchitect.run_command_stage_all_accepted e1 _ plan.commands hcmds

/-- C8 witness: on a plan with one dependency and one command, the oracles
returning exit code `0` and exit code `1` everywhere give the same erased
trace and outcome, and the run succeeds. -/
theorem execute_plan_ignores_exit_codes_witness :
    ((ProjectArchitect.execute_plan (fun _ => 0)
        { files := [], commands := ["echo hi"],
          dependencies := ["left-pad@1.0.0"] }).1.map eraseExit =
      (ProjectArchitect.execute_plan (fun _ => 1)
        { files := [], commands := ["echo hi"],
          dependencies := ["left-pad@1.0.0"] }).1.map eraseExit)
    ∧ (ProjectArchitect.execute_plan (fun _ => 0)
        { files := [], commands := ["echo hi"],
          dependencies := ["left-pad@1.0.0"] }).2 =
      (ProjectArchitect.execute_plan (fun _ => 1)
        { files := [], commands := ["echo hi"],
          dependencies := ["left-pad@1.0.0"] }).2
    ∧ (ProjectArchitect.execute_plan (fun _ => 0)
        { files := [], commands := ["echo hi"],
          dependencies := ["left-pad@1.0.0"] }).2 = true :=
  ⟨(execute_plan_ignores_exit_codes
      { files := [], commands := ["echo hi"], dependencies := ["left-pad@1.0.0"] }
      (fun _ => 0) (fun _ => 1)).1,
   (execute_plan_ignores_exit_codes
      { files := [], commands := ["echo hi"], dependencies := ["left-pad@1.0.0"] }
      (fun _ => 0) (fun _ => 1)).2.1,
   (execute_plan_ignores_exit_codes
      { files := [], commands := ["echo hi"], dependencies := ["left-pad@1.0.0"] }
      (fun _ => 0) (fun _ => 1)).2.2 (by decide) (by decide)⟩

theorem spawnsGuarded_of_no_spawn {l : List Event}
    (h : ∀ c x, Event.spawnDep c x ∉ l ∧ Event.spawnCmd c x ∉ l) :
    SpawnsGuarded l := by
  intro pre c x post
  constructor <;> intro heq
  · have hmem : Event.spawnDep c x ∈ l := by rw [heq]; simp
    exact absurd hmem (h c x).1
  · have hmem : Event.spawnCmd c x ∈ l := by rw [heq]; simp
    exact absurd hmem (h c x).2

theorem SpawnsGuarded.append {A B : List Event} (hA : SpawnsGuarded A)
    (hB : SpawnsGuarded B) : SpawnsGuarded (A ++ B) := by
  intro pre c x post
  constructor <;> intro heq
  · rcases List.append_eq_append_iff.mp heq.symm with ⟨a', hA2, hsp⟩ | ⟨c', hpre2, hB2⟩
    · cases a' with
      | nil =>
        rw [List.nil_append] at hsp
        obtain ⟨_, hlast⟩ := (hB [] c x post).1 (by simpa using hsp.symm)
        exact absurd hlast (by simp)
      | cons e a'' =>
        rw [List.cons_append] at hsp
        injection hsp with h1 h2
        rw [← h1] at hA2
        exact (hA pre c x a'').1 hA2
    · obtain ⟨hacc, hlast⟩ := (hB c' c x post).1 hB2
      refine ⟨hacc, ?_⟩
      rw [hpre2, List.getLast?_append, hlast]
      rfl
  · rcases List.append_eq_append_iff.mp heq.symm with ⟨a', hA2, hsp⟩ | ⟨c', hpre2, hB2⟩
    · cases a' with
      | nil =>
        rw [List.nil_append] at hsp
        obtain ⟨_, hlast⟩ := (hB [] c x post).2 (by simpa using hsp.symm)
        exact absurd hlast (by simp)
      | cons e a'' =>
        rw [List.cons_append] at hsp
        injection hsp with h1 h2
        rw [← h1] at hA2
        exact (hA pre c x a'').2 hA2
    · obtain ⟨hacc, hlast⟩ := (hB c' c x post).2 hB2
      refine ⟨hacc, ?_⟩
      rw [hpre2, List.getLast?_append, hlast]
      rfl

theorem spawnsGuarded_dep_pair (cmd : String) (x : Int)
    (h : (SecurityManager.validate_command cmd).1 = true) :
    SpawnsGuarded [Event.validateDep cmd, Event.spawnDep cmd x] := by
  intro pre c x' post
  constructor <;> intro heq
  · cases pre with
    | nil =>
      rw [List.nil_append] at heq
      injection heq with h1 h2
      exact Event.noConfusion h1
    | cons e pre' =>
      rw [List.cons_append] at heq
      injection heq with h1 h2
      cases pre' with
      | nil =>
        rw [List.nil_append] at h2
        injection h2 with h3 h4
        injection h3 with hc hx
        subst hc
        exact ⟨h, by simp [← h1]⟩
      | cons e2 pre'' =>
        rw [List.cons_append] at h2
        injection h2 with h3 h4
        simp at h4
  · have hmem : Event.spawnCmd c x' ∈ [Event.validateDep cmd, Event.spawnDep cmd x] := by
      rw [heq]
      simp
    simp at hmem

theorem spawnsGuarded_cmd_pair (cmd : String) (x : Int)
    (h : (SecurityManager.validate_command cmd).1 = true) :
    SpawnsGuarded [Event.validateCmd cmd, Event.spawnCmd cmd x] := by
  intro pre c x' post
  constructor <;> intro heq
  · have hmem : Event.spawnDep c x' ∈ [Event.validateCmd cmd, Event.spawnCmd cmd x] := by
      rw [heq]
      simp
    simp at hmem
  · cases pre with
    | nil =>
      rw [List.nil_append] at heq
      injection heq with h1 h2
      exact Event.noConfusion h1
    | cons e pre' =>
      rw [List.cons_append] at heq
      injection heq with h1 h2
      cases pre' with
      | nil =>
        rw [List.nil_append] at h2
        injection h2 with h3 h4
        injection h3 with hc hx
        subst hc
        exact ⟨h, by simp [← h1]⟩
      | cons e2 pre'' =>
        rw [List.cons_append] at h2
        injection h2 with h3 h4
        simp at h4

namespace ProjectArchitect

theorem spawnsGuarded_run_dep_stage (exits : Nat → Int) (k : Nat) (l : List String) :
    SpawnsGuarded (run_dep_stage exits k l).events := by
  induction l generalizing k with
  | nil =>
    rw [run_dep_stage_nil]
    exact spawnsGuarded_of_no_spawn (by intro c x; simp)
  | cons pkg rest ih =>
    rcases Bool.eq_false_or_eq_true
        (SecurityManager.validate_command ("npm install " ++ pkg)).1 with h | h
    · rw [run_dep_stage_cons_accept exits k pkg rest h]
      exact (spawnsGuarded_dep_pair _ (exits k) h).append (ih (k + 1))
    · rw [run_dep_stage_cons_reject exits k pkg rest h]
      exact spawnsGuarded_of_no_spawn (by intro c x; simp)

theorem spawnsGuarded_run_command_stage (exits : Nat → Int) (k : Nat) (l : List String) :
    SpawnsGuarded (run_command_stage exits k l).events := by
  induction l generalizing k with
  | nil =>
    rw [run_command_stage_nil]
    exact spawnsGuarded_of_no_spawn (by intro c x; simp)
  | cons cmd rest ih =>
    rcases Bool.eq_false_or_eq_true (SecurityManager.validate_command cmd).1 with h | h
    · rw [run_command_stage_cons_accept exits k cmd rest h]
      exact (spawnsGuarded_cmd_pair _ (exits k) h).append (ih (k + 1))
    · rw [run_command_stage_cons_reject exits k cmd rest h]
      exact spawnsGuarded_of_no_spawn (by intro c x; simp)

theorem spawnsGuarded_execute_plan (exits : Nat → Int) (plan : ExecutionPlan) :
    SpawnsGuarded (execute_plan exits plan).1 := by
  have hfiles : SpawnsGuarded (plan.files.map fun f => Event.writeFile f.path f.content) :=
    spawnsGuarded_of_no_spawn (by
      intro c x
      constructor <;> intro hm <;> rcases List.mem_map.mp hm with ⟨f, _, hf⟩ <;>
        exact Event.noConfusion hf)
  rcases Bool.eq_false_or_eq_true (run_dep_stage exits 0 plan.dependencies).ok with h | h
  · rw [execute_plan_of_dep_ok exits plan h, List.append_assoc]
    exact hfiles.append ((spawnsGuarded_run_dep_stage exits 0 plan.dependencies).append
      (spawnsGuarded_run_command_stage exits _ plan.commands))
  · rw [execute_plan_of_dep_fail exits plan h]
    exact hfiles.append (spawnsGuarded_run_dep_stage exits 0 plan.dependencies)

end ProjectArchitect

theorem spawnDep_mem_execute_plan (exits : Nat → Int) (plan : ExecutionPlan)
    (c : String) (x : Int)
    (h : Event.spawnDep c x ∈ (ProjectArchitect.execute_plan exits plan).1) :
    ∃ d ∈ plan.dependencies, c = "npm install " ++ d := by
  have hdep : Event.spawnDep c x ∈
      (ProjectArchitect.run_dep_stage exits 0 plan.dependencies).events →
      ∃ d ∈ plan.dependencies, c = "npm install " ++ d := by
    intro hm
    rcases ProjectArchitect.run_dep_stage_shape exits 0 plan.dependencies _ hm with
      ⟨d, _, he⟩ | ⟨d, hd, x', he, _⟩ | ⟨r, he⟩
    · exact Event.noConfusion he
    · injection he with hc hx
      exact ⟨d, hd, hc⟩
    · exact Event.noConfusion he
  rcases Bool.eq_false_or_eq_true
      (ProjectArchitect.run_dep_stage exits 0 plan.dependencies).ok with hok | hok
  · rw [ProjectArchitect.execute_plan_of_dep_ok exits plan hok] at h
    rcases List.mem_append.mp h with h' | h'
    · rcases List.mem_append.mp h' with h'' | h''
      · rcases List.mem_map.mp h'' with ⟨f, _, hf⟩
        exact Event.noConfusion hf
      · exact hdep h''
    · rcases ProjectArchitect.run_command_stage_shape exits _ plan.commands _ h' with
        ⟨c', _, he⟩ | ⟨c', _, x', he, _⟩ | ⟨r, he⟩ <;> exact Event.noConfusion he
  · rw [ProjectArchitect.execute_plan_of_dep_fail exits plan hok] at h
    rcases List.mem_append.mp h with h' | h'
    · rcases List.mem_map.mp h' with ⟨f, _, hf⟩
      exact Event.noConfusion hf
    · exact hdep h'

theorem spawnCmd_mem_execute_plan (exits : Nat → Int) (plan : ExecutionPlan)
    (c : String) (x : Int)
    (h : Event.spawnCmd c x ∈ (ProjectArchitect.execute_plan exits plan).1) :
    c ∈ plan.commands := by
  rcases Bool.eq_false_or_eq_true
      (ProjectArchitect.run_dep_stage exits 0 plan.dependencies).ok with hok | hok
  · rw [ProjectArchitect.execute_plan_of_dep_ok exits plan hok] at h
    rcases List.mem_append.mp h with h' | h'
    · rcases List.mem_append.mp h' with h'' | h''
      · rcases List.mem_map.mp h'' with ⟨f, _, hf⟩
        exact Event.noConfusion hf
      · rcases ProjectArchitect.run_dep_stage_shape exits 0 plan.dependencies _ h'' with
          ⟨d, _, he⟩ | ⟨d, _, x', he, _⟩ | ⟨r, he⟩ <;> exact Event.noConfusion he
    · rcases ProjectArchitect.run_command_stage_shape exits _ plan.commands _ h' with
        ⟨c', _, he⟩ | ⟨c', hc', x', he, _⟩ | ⟨r, he⟩
      · exact Event.noConfusion he
      · injection he with hc hx
        exact hc ▸ hc'
      · exact Event.noConfusion he
  · rw [ProjectArchitect.execute_plan_of_dep_fail exits plan hok] at h
    rcases List.mem_append.mp h with h' | h'
    · rcases List.mem_map.mp h' with ⟨f, _, hf⟩
      exact Event.noConfusion hf
    · rcases ProjectArchitect.run_dep_stage_shape exits 0 plan.dependencies _ h' with
        ⟨d, _, he⟩ | ⟨d, _, x', he, _⟩ | ⟨r, he⟩ <;> exact Event.noConfusion he

/-- C6.  Every process `_execute_plan` spawns was first submitted to the
security validator and accepted: wherever a spawn event sits in the trace, the
event immediately before it is the validator call on the same command string,
that command was accepted, and the string is either the synthesized
`npm install <dependency>` for a listed dependency or a listed setup
command. -/
theorem execute_plan_validates_before_spawn (exits : Nat → Int)
    (plan : ExecutionPlan) (pre post : List Event) (c : String) (x : Int) :
    ((ProjectArchitect.execute_plan exits plan).1 =
        pre ++ Event.spawnDep c x :: post →
      (SecurityManager.validate_command c).1 = true
      ∧ pre.getLast? = some (Event.validateDep c)
      ∧ ∃ d ∈ plan.dependencies, c = "npm install " ++ d)
    ∧ ((ProjectArchitect.execute_plan exits plan).1 =
        pre ++ Event.spawnCmd c x :: post →
      (SecurityManager.validate_command c).1 = true
      ∧ pre.getLast? = some (Event.validateCmd c)
      ∧ c ∈ plan.commands) := by
  constructor <;> intro heq
  · obtain ⟨hacc, hlast⟩ :=
      (ProjectArchitect.spawnsGuarded_execute_plan exits plan pre c x post).1 heq
    refine ⟨hacc, hlast, spawnDep_mem_execute_plan exits plan c x ?_⟩
    rw [heq]
    simp
  · obtain ⟨hacc, hlast⟩ :=
      (ProjectArchitect.spawnsGuarded_execute_plan exits plan pre c x post).2 heq
    refine ⟨hacc, hlast, spawnCmd_mem_execute_plan exits plan c x ?_⟩
    rw [heq]
    simp

/-- C6 witness: in the trace of `spawnPlan`, the dependency install spawned at
position 1 is the validated `npm install left-pad@1.0.0`, and the setup
command spawned at position 3 is the validated `echo hi`. -/
theorem execute_plan_validates_before_spawn_witness :
    ((SecurityManager.validate_command "npm install left-pad@1.0.0").1 = true
      ∧ [Event.validateDep "npm install left-pad@1.0.0"].getLast? =
          some (Event.validateDep "npm install left-pad@1.0.0")
      ∧ ∃ d ∈ spawnPlan.dependencies, "npm install left-pad@1.0.0" = "npm install " ++ d)
    ∧ ((SecurityManager.validate_command "echo hi").1 = true
      ∧ [Event.validateDep "npm install left-pad@1.0.0",
         Event.spawnDep "npm install left-pad@1.0.0" 0,
         Event.validateCmd "echo hi"].getLast? = some (Event.validateCmd "echo hi")
      ∧ "echo hi" ∈ spawnPlan.commands) :=
  ⟨(execute_plan_validates_before_spawn (fun _ => 0) spawnPlan
      [Event.validateDep "npm install left-pad@1.0.0"]
      [Event.validateCmd "echo hi", Event.spawnCmd "echo hi" 0]
      "npm install left-pad@1.0.0" 0).1 (by decide),
   (execute_plan_validates_before_spawn (fun _ => 0) spawnPlan
      [Event.validateDep "npm install left-pad@1.0.0",
       Event.spawnDep "npm install left-pad@1.0.0" 0,
       Event.validateCmd "echo hi"]
      [] "echo hi" 0).2 (by decide)⟩

/-! ## Path containment (claim C3) -/

theorem splitOnChar_ne_nil (sep : Char) (l : List Char) :
    splitOnChar sep l ≠ [] := by
  induction l with
  | nil => simp [splitOnChar]
  | cons c rest ih =>
    rw [splitOnChar]
    split
    · simp
    · split
      · simp
      · simp

theorem splitOnChar_append (sep : Char) (a b : List Char) :
    splitOnChar sep (a ++ sep :: b) = splitOnChar sep a ++ splitOnChar sep b := by
  induction a with
  | nil => simp [splitOnChar]
  | cons c a' ih =>
    by_cases hc : c = sep
    · subst hc
      simp only [List.cons_append, splitOnChar, if_true, List.append_eq, ih]
    · obtain ⟨s, ss, hsp⟩ := List.exists_cons_of_ne_nil (splitOnChar_ne_nil sep a')
      simp only [List.cons_append, splitOnChar, if_neg hc, List.append_eq, ih, hsp]

theorem foldl_stepSeg_no_dotdot (b : List (List Char)) (acc : List (List Char))
    (h : ['.', '.'] ∉ b) :
    b.foldl stepSeg acc = (b.filter keepSeg).reverse ++ acc := by
  induction b generalizing acc with
  | nil => simp
  | cons s rest ih =>
    have hs : s ≠ ['.', '.'] := fun he => h (he ▸ List.mem_cons_self _ _)
    have hrest : ['.', '.'] ∉ rest := fun hm => h (List.mem_cons_of_mem _ hm)
    by_cases hskip : s = [] ∨ s = ['.']
    · have hstep : stepSeg acc s = acc := by rw [stepSeg, if_pos hskip]
      have hkeep : ¬keepSeg s = true := by rcases hskip with rfl | rfl <;> decide
      rw [List.foldl_cons, hstep, ih _ hrest, List.filter_cons_of_neg hkeep]
    · have h1 : s ≠ [] := fun he => hskip (Or.inl he)
      have h2 : s ≠ ['.'] := fun he => hskip (Or.inr he)
      have hstep : stepSeg acc s = s :: acc := by rw [stepSeg, if_neg hskip, if_neg hs]
      have hkeep : keepSeg s = true := by simp [keepSeg, h1, h2]
      rw [List.foldl_cons, hstep, ih _ hrest, List.filter_cons_of_pos hkeep,
        List.reverse_cons, List.append_assoc, List.singleton_append]

/-- Lexical OS resolution keeps a clean relative path (no leading `/`, no
`..` segment) inside the root it is joined to. -/
theorem insideRoot_of_clean (root p : List Char)
    (hhead : ¬p.head? = some '/')
    (hdots : ['.', '.'] ∉ splitOnChar '/' p) :
    insideRoot root p = true := by
  simp only [insideRoot, writeTarget, if_neg hhead, resolvePath]
  rw [splitOnChar_append, List.foldl_append, foldl_stepSeg_no_dotdot _ _ hdots,
    List.reverse_append, List.reverse_reverse]
  exact List.isPrefixOf_iff_prefix.mpr (List.prefix_append _ _)

theorem writeFile_mem_execute_plan (exits : Nat → Int) (plan : ExecutionPlan)
    (p c : String)
    (h : Event.writeFile p c ∈ (ProjectArchitect.execute_plan exits plan).1) :
    ∃ f ∈ plan.files, f.path = p := by
  have hw : (p, c) ∈ writesOf (ProjectArchitect.execute_plan exits plan).1 :=
    List.mem_filterMap.mpr ⟨_, h, rfl⟩
  rw [writesOf_execute_plan] at hw
  rcases List.mem_map.mp hw with ⟨f, hf, hfe⟩
  exact ⟨f, hf, congrArg Prod.fst hfe⟩

/-- C3 counterexample: the executor writes the artifact path `../evil.txt` as
given — `project_dir / path` with no containment check — and the resolved
write target of that path lies outside the project root. -/
theorem execute_plan_escapes_root :
    Event.writeFile "../evil.txt" "x" ∈
      (ProjectArchitect.execute_plan (fun _ => 0)
        { files := [{ path := "../evil.txt", content := "x" }],
          commands := [], dependencies := [] }).1
    ∧ insideRoot "proj".toList "../evil.txt".toList = false := by decide

/-- C3 as amended: stage-1 writes land at `root/path` with no containment
check, so only for artifact paths that are relative (no leading `/`) and free
of `..` segments does every write performed by the executor stay inside the
project root; a `..` or absolute path escapes it. -/
theorem execute_plan_writes_inside_root (exits : Nat → Int) (root : List Char)
    (plan : ExecutionPlan)
    (hclean : ∀ f ∈ plan.files, ¬f.path.toList.head? = some '/' ∧
      ['.', '.'] ∉ splitOnChar '/' f.path.toList) :
    ∀ p c, Event.writeFile p c ∈ (ProjectArchitect.execute_plan exits plan).1 →
      insideRoot root p.toList = true := by
  intro p c h
  rcases writeFile_mem_execute_plan exits plan p c h with ⟨f, hf, rfl⟩
  exact insideRoot_of_clean root f.path.toList (hclean f hf).1 (hclean f hf).2

/-- C3 amended witness: the clean path `a/b.txt` written by `cleanPlan`
resolves inside the root `proj`. -/
theorem execute_plan_writes_inside_root_witness :
    (∀ f ∈ cleanPlan.files, ¬f.path.toList.head? = some '/' ∧
      ['.', '.'] ∉ splitOnChar '/' f.path.toList)
    ∧ Event.writeFile "a/b.txt" "x" ∈
        (ProjectArchitect.execute_plan (fun _ => 0) cleanPlan).1
    ∧ insideRoot "proj".toList "a/b.txt".toList = true :=
  ⟨by decide, by decide,
   execute_plan_writes_inside_root (fun _ => 0) "proj".toList cleanPlan (by decide)
     "a/b.txt" "x" (by decide)⟩
